import Mathlib

/-!
# Verification of the polars-bio range-operation and quality pipeline

Shallow embedding of the Rust sources of `polars-bio` (`src/option.rs`,
`src/operation.rs`, `src/query.rs`, `src/udtf.rs`, `src/udaf.rs`,
`src/base_quality.rs`, `src/quality_udaf.rs`, `src/quantile_stats.rs`,
`src/sequence_quality_histogram.rs`, `src/write.rs`, `src/scan.rs`),
together with theorems settling the specification claims about them.

Conventions: Rust machine integers are modelled by `Nat`/`Int` (with an
explicit `% 2 ^ 64` where `u64` wrap-around matters); `f64` quantile
arithmetic is modelled by `ℚ` (for the quantiles 1/4, 1/2, 3/4, the score
values 0..93 and the resulting quarter-integer interpolants, every `f64`
operation performed by the source is exact, so the rational model is
faithful); fallible or panicking code returns `Option`/`Except`.
-/

namespace PolarsBio

/-- `FilterOp` from `src/option.rs`: `Weak = 0`, `Strict = 1`. -/
inductive FilterOp where
  | Weak
  | Strict
  deriving DecidableEq, Repr

/-- `RangeOp` from `src/option.rs` (the eight public range operations). -/
inductive RangeOp where
  | Overlap
  | Complement
  | Cluster
  | Nearest
  | Coverage
  | Subtract
  | CountOverlapsNaive
  | Merge
  deriving DecidableEq, Repr

/-- The fields of `RangeOptions` (src/option.rs) that `do_range_operation`
inspects before dispatching: the operation tag and the optional
`overlap_alg` string. -/
structure RangeOptions where
  range_op : RangeOp
  overlap_alg : Option String
  deriving DecidableEq, Repr

/-- Result of a dispatch: either a lazily evaluated result table
(abstracted to a unit, since the claims only concern whether dispatch
succeeds) or a Rust `panic!` with its message. -/
inductive DispatchResult where
  | table
  | panic (msg : String)
  deriving DecidableEq, Repr

/-- `do_range_operation` from `src/operation.rs`, restricted to its
control flow: the `overlap_alg` guard panics on the reserved
`"coitreesnearest"` tag, and the `match range_options.range_op` arms
handle `Overlap`, `Nearest`, `CountOverlapsNaive` and `Coverage`
(each producing a result table), while the wildcard arm executes
`panic!("Unsupported operation")`. -/
def do_range_operation (opts : RangeOptions) : DispatchResult :=
  match opts.overlap_alg with
  | some alg =>
    if alg = "coitreesnearest" then
      .panic "CoitreesNearest is an internal algorithm for nearest operation"
    else
      dispatchOp opts.range_op
  | none => dispatchOp opts.range_op
where
  /-- The `match range_options.range_op` of `do_range_operation`. -/
  dispatchOp : RangeOp → DispatchResult
  | .Overlap => .table
  | .Nearest => .table
  | .CountOverlapsNaive => .table
  | .Coverage => .table
  | _ => .panic "Unsupported operation"

/-- An interval record as seen through the three coordinate columns
`contig`, `start`, `end` (src/query.rs join columns). -/
structure Bed where
  contig : String
  lo : Int
  hi : Int
  deriving DecidableEq, Repr

/-- The comparison `sign` computed in `prepare_query`
(src/operation.rs, lines 660-663): `"="` for `FilterOp::Weak`,
`""` otherwise. -/
def signOf : FilterOp → String
  | .Weak => "="
  | _ => ""

/-- The rendered comparison `a >{sign} b` of the generated SQL
(src/query.rs line 115): `>=` when the sign is `"="`, `>` otherwise. -/
def gtSign (sign : String) (a b : Int) : Bool :=
  if sign = "=" then a ≥ b else a > b

/-- The rendered comparison `a <{sign} b` of the generated SQL
(src/query.rs line 117): `<=` when the sign is `"="`, `<` otherwise. -/
def ltSign (sign : String) (a b : Int) : Bool :=
  if sign = "=" then a ≤ b else a < b

/-- The `WHERE` clause of the SQL emitted by `overlap_query`
(src/query.rs lines 106-131), with `a` the left table row and `b` the
right table row:
`a.contig = b.contig AND a.end >{sign} b.start AND a.start <{sign} b.end`. -/
def overlapWhere (fop : FilterOp) (a b : Bed) : Bool :=
  a.contig = b.contig && gtSign (signOf fop) a.hi b.lo && ltSign (signOf fop) a.lo b.hi

/-- The relational semantics of the join query emitted by
`overlap_query`: every pair of a left-table row and a right-table row
satisfying the `WHERE` clause is emitted. -/
def overlapJoin (fop : FilterOp) (left right : List Bed) : List (Bed × Bed) :=
  left.flatMap fun a => (right.filter fun b => overlapWhere fop a b).map fun b => (a, b)

/-! ## Count-overlaps path (src/udtf.rs) -/

/-- `build_coitree_from_batches` (src/udtf.rs lines 203-229): group the
left-table rows by contig into per-contig interval vectors (each interval
keeping its `(start, end)` coordinates); a contig with no intervals is
absent from the map. The map is modelled as a lookup function. -/
def buildTrees (rows : List Bed) (contig : String) : Option (List (Int × Int)) :=
  let ivs := (rows.filter fun r => r.contig = contig).map fun r => (r.lo, r.hi)
  if ivs.isEmpty then none else some ivs

/-- Modelled from the `coitrees` crate backing `src/udtf.rs`:
`COITree::query_count(first, last)` counts the stored intervals that
overlap the query window under the crate's closed-interval semantics,
i.e. intervals `(a, b)` with `a ≤ last ∧ b ≥ first`. -/
def queryCount (ivs : List (Int × Int)) (first last : Int) : Nat :=
  (ivs.filter fun iv => iv.1 ≤ last && iv.2 ≥ first).length

/-- The per-row counting step of `get_stream` (src/udtf.rs lines
278-289): look up the right row's contig; an absent contig yields count
`0`, otherwise the tree is queried with the window shrunk to
`(start + 1, end - 1)`. -/
def countForRow (rows : List Bed) (r : Bed) : Nat :=
  match buildTrees rows r.contig with
  | none => 0
  | some ivs => queryCount ivs (r.lo + 1) (r.hi - 1)

/-- The stream mapping of `get_stream` (src/udtf.rs lines 273-297):
augment every right-table row with its count. -/
def countOverlapsNaive (leftRows rightRows : List Bed) : List (Bed × Nat) :=
  rightRows.map fun r => (r, countForRow leftRows r)

/-- The filter-op overlap predicate as the specification defines it
(spec §3, "Filter op"): `Weak` means `a.end ≥ b.start ∧ a.start ≤ b.end`,
`Strict` means `a.end > b.start ∧ a.start < b.end`. -/
def filterPred (fop : FilterOp) (a b : Bed) : Bool :=
  match fop with
  | .Weak => a.hi ≥ b.lo && a.lo ≤ b.hi
  | .Strict => a.hi > b.lo && a.lo < b.hi

/-- The count the claim describes: the number of left-table intervals on
the right row's contig that overlap it under the filter op. -/
def specCount (fop : FilterOp) (rows : List Bed) (r : Bed) : Nat :=
  (rows.filter fun l => l.contig = r.contig && filterPred fop l r).length

/-! ## Base-quality warn logic (src/udaf.rs, src/base_quality.rs) -/

/-- Insert into a sorted list (ascending). -/
def insertSorted (x : Nat) : List Nat → List Nat
  | [] => [x]
  | y :: t => if x ≤ y then x :: y :: t else y :: insertSorted x t

/-- `values.sort_unstable()` of src/udaf.rs line 33: sort ascending
(insertion sort; stability is irrelevant for numeric scores). -/
def sortAsc : List Nat → List Nat
  | [] => []
  | x :: t => insertSorted x (sortAsc t)

/-- `QualityScoresStats::calc_stats` (src/udaf.rs lines 32-47): sort the
per-position scores, then `median` by parity of the length, `q1` at index
`n / 4` and `q3` at index `3 * n / 4`. Scores are `u8`; statistics are
`f64`, modelled exactly in `ℚ`. Out-of-range accesses default to `0`
(the source indexes in range for every non-empty vector it passes). -/
def calcStats (values : List Nat) : ℚ × ℚ × ℚ :=
  let v := sortAsc values
  let n := v.length
  let median : ℚ :=
    if n % 2 = 0 then ((v.getD (n / 2 - 1) 0 : ℚ) + (v.getD (n / 2) 0 : ℚ)) / 2
    else (v.getD (n / 2) 0 : ℚ)
  let q1 : ℚ := (v.getD (n / 4) 0 : ℚ)
  let q3 : ℚ := (v.getD (3 * n / 4) 0 : ℚ)
  (median, q1, q3)

/-- The warn-tag update performed per position inside
`QualityScoresStats::evaluate` (src/udaf.rs lines 85-89):
`match (q1 ≤ 20, q1 ≤ 25, tag)` sends any position with `q1 ≤ 20` to
`"fail"`, sends `q1 ≤ 25` to `"warn"` only from `"pass"`, and otherwise
leaves the tag unchanged. -/
def udafWarnStep (tag : String) (q1 : ℚ) : String :=
  if q1 ≤ 20 then "fail"
  else if q1 ≤ 25 ∧ tag = "pass" then "warn"
  else tag

/-- The `base_quality_warn` tag computed by `QualityScoresStats::evaluate`
(src/udaf.rs lines 68-90) over the non-empty per-position score lists:
fold `udafWarnStep` over each position's `q1` starting from `"pass"`. -/
def udafWarn (positions : List (List Nat)) : String :=
  (positions.filter fun values => !values.isEmpty).foldl
    (fun tag values => udafWarnStep tag (calcStats values).2.1) "pass"

/-- The warn-status update of `BaseQualityMetrics::finalize`
(src/base_quality.rs lines 54-58): a position with `median ≤ 20` sets
the status to `"fail"`; otherwise `median ≤ 25` sets it to `"warn"`
unless it is already `"fail"`. -/
def finalizeWarnStep (tag : String) (median : ℚ) : String :=
  if median ≤ 20 then "fail"
  else if median ≤ 25 ∧ tag ≠ "fail" then "warn"
  else tag

/-- The `base_quality_warn` status of `BaseQualityMetrics::finalize`
(src/base_quality.rs lines 47-76) as a function of the per-position
medians, starting from `"pass"`. -/
def finalizeWarn (medians : List ℚ) : String :=
  medians.foldl finalizeWarnStep "pass"

/-- The median-threshold rule the claim states, applied to the same
per-position score lists `udafWarn` consumes: `median ≤ 20 → fail`,
else `median ≤ 25 → warn` unless already fail, else the tag is kept. -/
def medianRuleWarn (positions : List (List Nat)) : String :=
  (positions.filter fun values => !values.isEmpty).foldl
    (fun tag values => finalizeWarnStep tag (calcStats values).1) "pass"

/-! ## Weighted-percentile quantiles
(src/quantile_stats.rs `calculate_histogram_stats`,
src/quality_udaf.rs `QuartilesAccumulator::quartiles`) -/

/-- The nonzero entries of a histogram with their scores:
`hist.iter().enumerate().filter(|(_, &count)| count > 0)`. -/
def support (hist : List Nat) : List (Nat × Nat) :=
  hist.enum.filter fun p => p.2 > 0

/-- `rank = q·(N−1)`, `r = floor(rank)`, `δ = rank − r`, `n = r + 1`
(identical in src/quantile_stats.rs lines 237-240 and
src/quality_udaf.rs lines 71-74). Returns `(n, δ)`. -/
def rankParams (q : ℚ) (total : Nat) : Nat × ℚ :=
  (⌊q * ((total : ℚ) - 1)⌋.toNat + 1,
    q * ((total : ℚ) - 1) - ⌊q * ((total : ℚ) - 1)⌋)

/-- The scanning loop shared by the `quantile` closure of
`calculate_histogram_stats` (src/quantile_stats.rs lines 241-252) and
the quartile loop of `QuartilesAccumulator::quartiles`
(src/quality_udaf.rs lines 75-88): walk the nonzero entries in
ascending score order; if `acc = n` with a previous nonzero score `lo`,
return `lo + (hi − lo)·δ`; else if `acc + count > n`, return `hi`; else
accumulate and remember `hi` as the new `lo`. `none` models falling out
of the loop without returning. -/
def quantLoop (n : Nat) (delta : ℚ) : List (Nat × Nat) → Nat → Option Nat → Option ℚ
  | [], _, _ => none
  | (hi, count) :: rest, acc, lo =>
    if acc = n ∧ lo.isSome then
      some ((lo.getD 0 : ℚ) + ((hi : ℚ) - (lo.getD 0 : ℚ)) * delta)
    else if acc + count > n then
      some (hi : ℚ)
    else
      quantLoop n delta rest (acc + count) (some hi)

/-- The fall-through fold of `quantile` in src/quantile_stats.rs lines
254-257 (also the `sum == 1` value of src/quality_udaf.rs lines 62-65):
the largest score with nonzero count, `0` for an all-zero histogram. -/
def lastNonzeroScore (hist : List Nat) : Nat :=
  hist.enum.foldl (fun acc p => if p.2 > 0 then p.1 else acc) 0

/-- The inner `quantile` function of `calculate_histogram_stats`
(src/quantile_stats.rs lines 236-258): run the loop, falling back to
the largest nonzero score. -/
def histQuantile (hist : List Nat) (q : ℚ) (total : Nat) : ℚ :=
  match quantLoop (rankParams q total).1 (rankParams q total).2 (support hist) 0 none with
  | some r => r
  | none => lastNonzeroScore hist

/-- `calculate_histogram_stats` (src/quantile_stats.rs lines 223-268):
`none` for an empty histogram, otherwise
`(average, q1, median, q3, lower, upper)` with `IQR` fences. -/
def calculate_histogram_stats (hist : List Nat) :
    Option (ℚ × ℚ × ℚ × ℚ × ℚ × ℚ) :=
  let total := hist.sum
  if total = 0 then none
  else
    let weighted := ((hist.enum.map fun p => p.1 * p.2).sum : Nat)
    let average : ℚ := (weighted : ℚ) / (total : ℚ)
    let q1 := histQuantile hist (1/4) total
    let median := histQuantile hist (1/2) total
    let q3 := histQuantile hist (3/4) total
    let iqr := q3 - q1
    some (average, q1, median, q3, q1 - 3/2 * iqr, q3 + 3/2 * iqr)

/-- The quantile value computed inside `QuartilesAccumulator::quartiles`
for one of the three quartiles (src/quality_udaf.rs lines 70-88): the
same loop, but `ret[i+1]` keeps its initial `0` if the loop falls
through. -/
def udafQuant (hist : List Nat) (q : ℚ) (total : Nat) : ℚ :=
  (quantLoop (rankParams q total).1 (rankParams q total).2 (support hist) 0 none).getD 0

/-- `QuartilesAccumulator::quartiles` (src/quality_udaf.rs lines
52-97): `none` models the `assert!(sum != 0)` panic; a single
observation short-circuits to five copies of its score; otherwise the
three quartiles are computed by the loop and the fences from the IQR.
Returned as `[lower, q1, q2, q3, upper]` = `ret[0..5]`. -/
def QuartilesAccumulator.quartiles (hist : List Nat) : Option (ℚ × ℚ × ℚ × ℚ × ℚ) :=
  let sum := hist.sum
  if sum = 0 then none
  else if sum = 1 then
    let v : ℚ := lastNonzeroScore hist
    some (v, v, v, v, v)
  else
    let q1 := udafQuant hist (1/4) sum
    let q2 := udafQuant hist (1/2) sum
    let q3 := udafQuant hist (3/4) sum
    let iqr := q3 - q1
    some (q1 - 3/2 * iqr, q1, q2, q3, q3 + 3/2 * iqr)

/-- The specification's weighted percentile (spec §4.8), stated in its
own words: scanning scores with nonzero count in ascending order while
accumulating `acc`, the result is the current score `hi` at the first
point where `acc + count > n` — refined to `lo + (hi − lo)·δ` when
`acc = n` exactly and a previous nonzero score `lo` exists. `none` when
no such point is reached. -/
def specPercentileLoop (n : Nat) (delta : ℚ) :
    List (Nat × Nat) → Nat → Option Nat → Option ℚ
  | [], _, _ => none
  | (hi, count) :: rest, acc, lo =>
    if acc + count > n then
      if acc = n ∧ lo.isSome then
        some ((lo.getD 0 : ℚ) + ((hi : ℚ) - (lo.getD 0 : ℚ)) * delta)
      else
        some (hi : ℚ)
    else
      specPercentileLoop n delta rest (acc + count) (some hi)

/-- The specification's weighted percentile of a histogram. -/
def specPercentile (hist : List Nat) (q : ℚ) (total : Nat) : Option ℚ :=
  specPercentileLoop (rankParams q total).1 (rankParams q total).2 (support hist) 0 none

/-! ## Write-stream row counting (src/write.rs) -/

/-- The `count` column of a batch as `consume_write_stream` sees it:
absent, present but not downcastable to `UInt64Array`, or a `u64`
column with its (possibly null) values. -/
inductive CountColumn where
  | absent
  | nonU64
  | u64 (vals : List (Option Nat))
  deriving DecidableEq, Repr

/-- A record batch of the write stream, reduced to what
`consume_write_stream` inspects. -/
structure WBatch where
  countCol : CountColumn
  numRows : Nat
  deriving DecidableEq, Repr

/-- The `u64` modulus: `total_rows` is a Rust `u64`. -/
def U64MOD : Nat := 2 ^ 64

/-- `consume_write_stream` (src/write.rs lines 95-117): fold over the
batches; a batch with a `u64` `count` column whose first value exists
and is non-null contributes that first value; a batch whose `count`
column is absent contributes its `num_rows()`; any other shape
contributes nothing. -/
def consume_write_stream (batches : List WBatch) : Nat :=
  batches.foldl
    (fun total b =>
      match b.countCol with
      | .u64 vals =>
        match vals.head? with
        | some (some v) => (total + v) % U64MOD
        | _ => total
      | .nonU64 => total
      | .absent => (total + b.numRows) % U64MOD)
    0

/-- Modelled from the spec: the `insert_into` write plan (provided by
the external `datafusion-bio-formats` crates, not under src/) "emits a
terminal batch whose `count` column contains the number of rows
written" — so a batch of the write stream either carries its count as
the single non-null `u64` value of its `count` column, or has no
`count` column at all. -/
def WBatch.wellFormed (b : WBatch) : Prop :=
  (∃ v, b.countCol = .u64 [some v]) ∨ b.countCol = .absent

/-- The total the claim describes: the sum of all `count` values across
all batches, with `num_rows()` as the fallback for batches without a
`count` column. -/
def claimedTotal (batches : List WBatch) : Nat :=
  (batches.map fun b =>
      match b.countCol with
      | .u64 vals => (vals.filterMap id).sum
      | .nonU64 => 0
      | .absent => b.numRows).sum

/-! ## Generated table names (src/operation.rs, src/lib.rs) -/

/-- The catalog name registered by the `k`-th naive
count-overlaps/coverage plan construction
(src/operation.rs line 205): the constant
`"count_overlaps_coverage"`, independent of any counter. -/
def countOverlapsRegisteredName (_invocation : Nat) : String :=
  "count_overlaps_coverage"

/-- `LEFT_TABLE` (src/lib.rs line 41). -/
def LEFT_TABLE : String := "s1"

/-- `RIGHT_TABLE` (src/lib.rs line 42). -/
def RIGHT_TABLE : String := "s2"

/-! ## Quality-histogram byte pipeline
(src/sequence_quality_histogram.rs, src/quality_udaf.rs) -/

/-- `decode_score` (src/sequence_quality_histogram.rs lines 157-164,
identical in src/udaf.rs lines 23-30): bytes `≥ 33` decode to
`byte − 33`, smaller bytes are dropped. The argument is the byte value
(0..255); `c as u8` of the char the source passes is exactly that
byte. -/
def decode_score (b : Nat) : Option Nat :=
  if b ≥ 33 then some (b - 33) else none

/-- One byte step of the histogram loop of `get_stream`
(src/sequence_quality_histogram.rs lines 206-213): a decoded score is
recorded into the per-position 94-slot counter only when it passes the
`(score as usize) < entry.len()` bounds check; everything else leaves
the histogram unchanged. The histogram is modelled as a function
`position → score → count`. -/
def recordByte (h : Nat → Nat → Nat) (pos b : Nat) : Nat → Nat → Nat :=
  match decode_score b with
  | some score =>
    if score < 94 then
      fun p s => if p = pos ∧ s = score then h p s + 1 else h p s
    else h
  | none => h

/-- The histogram accumulated from one quality string
(`for (pos, byte) in s.bytes().enumerate()` of `get_stream`), starting
from an existing histogram state. -/
def processString (s : List Nat) (h : Nat → Nat → Nat) : Nat → Nat → Nat :=
  s.enum.foldl (fun h p => recordByte h p.1 p.2) h

/-- The histogram of a single quality string starting from the empty
state. -/
def histOf (s : List Nat) : Nat → Nat → Nat :=
  processString s fun _ _ => 0

/-- `QuartilesAccumulator::add_quality` (src/quality_udaf.rs lines
33-40), per byte: `let q = (byte as usize) - 33; self.hist[pos][q] += 1;`
with no range check — a byte below 33 underflows the subtraction and a
decoded score `≥ 94` indexes out of bounds, so both panic (`none`);
otherwise the byte yields score `byte − 33`. -/
def addQualityByte (b : Nat) : Option Nat :=
  if 33 ≤ b ∧ b - 33 < 94 then some (b - 33) else none

/-- The byte loop of `add_quality`, carrying the running position: the
first panicking byte aborts (`none`), otherwise the `(position, score)`
increments are collected in order. -/
def addQualityGo : Nat → List Nat → Option (List (Nat × Nat))
  | _, [] => some []
  | i, b :: rest =>
    match addQualityByte b with
    | none => none
    | some sc => (addQualityGo (i + 1) rest).map fun t => (i, sc) :: t

/-- `add_quality` over a whole quality string: the list of
`(position, score)` increments, or `none` if any byte panics. -/
def addQuality (s : List Nat) : Option (List (Nat × Nat)) :=
  addQualityGo 0 s

/-! ## Round-robin partitioning (src/scan.rs) -/

/-- `partition_batches[i % num_partitions].push(batch)`: append `b` to
the `j`-th bucket. -/
def pushAt (ps : List (List α)) (j : Nat) (b : α) : List (List α) :=
  ps.set j (ps.getD j [] ++ [b])

/-- The round-robin distribution loop of `create_partition_streams`
(src/scan.rs lines 343-345), carrying the running batch index `i`. -/
def rrLoop (p : Nat) : List α → Nat → List (List α) → List (List α)
  | [], _, ps => ps
  | b :: rest, i, ps => rrLoop p rest (i + 1) (pushAt ps (i % p) b)

/-- `create_partition_streams` (src/scan.rs lines 328-355), with a
partition stream reduced to its batch list: an empty input yields a
single empty partition; otherwise `num_partitions =
target_partitions.min(batches.len()).max(1)` buckets are filled
round-robin and empty buckets are filtered out. -/
def create_partition_streams (batches : List α) (target_partitions : Nat) :
    List (List α) :=
  if batches.isEmpty then [[]]
  else
    let p := max (min target_partitions batches.length) 1
    (rrLoop p batches 0 (List.replicate p [])).filter fun l => !l.isEmpty

/-- The batches placed in partition `j`: the input batches whose index
`i` (counted from `i0`) satisfies `i % p = j`, in input order. -/
def rrSpec (p : Nat) : List α → Nat → Nat → List α
  | [], _, _ => []
  | b :: rest, i, j =>
    if i % p = j then b :: rrSpec p rest (i + 1) j else rrSpec p rest (i + 1) j

/-! ## Schema-override stream (src/write.rs) -/

/-- A column as the schema-override wrapper sees it: a data type plus
opaque payload. -/
structure Column where
  dtype : String
  payload : String
  deriving DecidableEq, Repr

/-- A record batch for the schema-override wrapper: the target field
types come from the override schema, modelled as the list of field
data types. -/
structure OBatch where
  cols : List Column
  deriving DecidableEq, Repr

/-- The per-column reconciliation of `SchemaOverrideStream::poll_next`
(src/write.rs lines 580-605): a column already of the target type is
passed through; otherwise `cast` is tried and, on failure, the original
column is pushed (the failure is only logged at debug level). The
`cast` oracle models `arrow::compute::cast`. -/
def overrideColumn (cast : Column → String → Option Column)
    (target : String) (c : Column) : Column :=
  if c.dtype = target then c
  else
    match cast c target with
    | some c2 => c2
    | none => c

/-- The per-batch step of `SchemaOverrideStream::poll_next`
(src/write.rs lines 576-613): reconcile each column with its target
field, then try `RecordBatch::try_new` under the override schema
(`tryNew` oracle); on failure the original input batch is emitted. -/
def overrideBatch (cast : Column → String → Option Column)
    (tryNew : List String → List Column → Option OBatch)
    (schema : List String) (b : OBatch) : OBatch :=
  let cols := (b.cols.zip schema).map fun p => overrideColumn cast p.2 p.1
  match tryNew schema cols with
  | some nb => nb
  | none => b

/-- `SchemaOverrideStream` as a stream transformer (src/write.rs lines
568-620): `Ok` batches are rewritten per `overrideBatch`, errors are
propagated unchanged, the end of the stream is the end of the input. -/
def overrideStream (cast : Column → String → Option Column)
    (tryNew : List String → List Column → Option OBatch)
    (schema : List String) (input : List (Except String OBatch)) :
    List (Except String OBatch) :=
  input.map fun item =>
    match item with
    | .ok b => .ok (overrideBatch cast tryNew schema b)
    | .error e => .error e

/-! ## Helper lemmas -/

/-- `overlapWhere` splits into the contig equality and the
specification's filter-op predicate. -/
theorem overlapWhere_eq (fop : FilterOp) (a b : Bed) :
    overlapWhere fop a b = (decide (a.contig = b.contig) && filterPred fop a b) := by
  cases fop <;>
    simp [overlapWhere, filterPred, gtSign, ltSign, signOf, Bool.and_assoc]

/-! ## C1: range-operation dispatch -/

/-- C1, counterexample: a range-options bundle with `range_op = merge`
(and no explicit algorithm) does not dispatch to a result table — the
dispatcher executes `panic!("Unsupported operation")`. -/
theorem merge_dispatch_panics :
    do_range_operation ⟨RangeOp.Merge, none⟩ = .panic "Unsupported operation" ∧
      do_range_operation ⟨RangeOp.Merge, none⟩ ≠ .table := by
  constructor
  · rfl
  · intro h
    simp [do_range_operation, do_range_operation.dispatchOp] at h

/-- C1, amended: for every bundle whose `overlap_alg` is not the
reserved `coitreesnearest` tag, dispatch yields a result table for
`overlap`, `nearest`, `count_overlaps_naive` and `coverage`, and
panics with "Unsupported operation" for `merge`, `cluster`,
`complement` and `subtract`. -/
theorem do_range_operation_dispatch (opts : RangeOptions)
    (halg : opts.overlap_alg ≠ some "coitreesnearest") :
    ((opts.range_op = .Overlap ∨ opts.range_op = .Nearest ∨
      opts.range_op = .CountOverlapsNaive ∨ opts.range_op = .Coverage) →
      do_range_operation opts = .table) ∧
    ((opts.range_op = .Merge ∨ opts.range_op = .Cluster ∨
      opts.range_op = .Complement ∨ opts.range_op = .Subtract) →
      do_range_operation opts = .panic "Unsupported operation") := by
  have hd : do_range_operation opts = do_range_operation.dispatchOp opts.range_op := by
    unfold do_range_operation
    cases h : opts.overlap_alg with
    | none => rfl
    | some alg =>
      have halg2 : alg ≠ "coitreesnearest" := fun hc => halg (by rw [h, hc])
      simp [halg2]
  constructor <;> rintro (h | h | h | h) <;> rw [hd, h] <;> rfl

/-- C1, witness for `do_range_operation_dispatch` at concrete
bundles. -/
theorem do_range_operation_dispatch_instance :
    do_range_operation ⟨RangeOp.Overlap, none⟩ = .table ∧
      do_range_operation ⟨RangeOp.Subtract, none⟩ = .panic "Unsupported operation" :=
  ⟨(do_range_operation_dispatch ⟨RangeOp.Overlap, none⟩ (by simp)).1 (Or.inl rfl),
   (do_range_operation_dispatch ⟨RangeOp.Subtract, none⟩ (by simp)).2
     (Or.inr (Or.inr (Or.inr rfl)))⟩

/-! ## C2: overlap join predicate -/

/-- C2: for a left row `a` and right row `b` with equal contig, the
overlap operator emits the pair `(a, b)` iff the filter-op predicate
holds — `a.end ≥ b.start ∧ a.start ≤ b.end` under `Weak`,
`a.end > b.start ∧ a.start < b.end` under `Strict`. -/
theorem overlap_emits_iff (fop : FilterOp) (L R : List Bed) (a b : Bed)
    (ha : a ∈ L) (hb : b ∈ R) (hc : a.contig = b.contig) :
    ((a, b) ∈ overlapJoin fop L R) ↔
      (match fop with
        | .Weak => a.hi ≥ b.lo ∧ a.lo ≤ b.hi
        | .Strict => a.hi > b.lo ∧ a.lo < b.hi) := by
  have hpred : ∀ fop, (filterPred fop a b = true) ↔
      (match fop with
        | FilterOp.Weak => a.hi ≥ b.lo ∧ a.lo ≤ b.hi
        | FilterOp.Strict => a.hi > b.lo ∧ a.lo < b.hi) := by
    intro fop
    cases fop <;> simp [filterPred]
  rw [← hpred]
  unfold overlapJoin
  constructor
  · intro hmem
    rw [List.mem_flatMap] at hmem
    obtain ⟨x, _, hx⟩ := hmem
    rw [List.mem_map] at hx
    obtain ⟨y, hy, hxy⟩ := hx
    obtain ⟨hxa, hyb⟩ := Prod.mk.injEq .. ▸ hxy
    subst hxa hyb
    have := (List.mem_filter.mp hy).2
    rw [overlapWhere_eq] at this
    exact (Bool.and_eq_true ..).mp this |>.2
  · intro hp
    rw [List.mem_flatMap]
    refine ⟨a, ha, ?_⟩
    rw [List.mem_map]
    refine ⟨b, List.mem_filter.mpr ⟨hb, ?_⟩, rfl⟩
    rw [overlapWhere_eq]
    exact (Bool.and_eq_true ..).mpr ⟨decide_eq_true hc, hp⟩

/-- C2, witness for `overlap_emits_iff`: the single pair of the spec's
scenario 1 is emitted. -/
theorem overlap_emits_iff_instance :
    (⟨"chr1", 10, 20⟩, ⟨"chr1", 15, 25⟩) ∈
      overlapJoin .Weak [⟨"chr1", 10, 20⟩] [⟨"chr1", 15, 25⟩, ⟨"chr1", 30, 40⟩] :=
  (overlap_emits_iff .Weak _ _ ⟨"chr1", 10, 20⟩ ⟨"chr1", 15, 25⟩
      (by decide) (by decide) rfl).mpr (by constructor <;> decide)

/-! ## C3: count-overlaps -/

/-- Filtering after a map is filtering the composed predicate. -/
theorem length_filter_map {α β : Type} (l : List α) (f : α → β) (p : β → Bool) :
    ((l.map f).filter p).length = (l.filter fun x => p (f x)).length := by
  induction l with
  | nil => rfl
  | cons x t ih => by_cases h : p (f x) <;> simp [h, ih]

/-- Two consecutive filters fuse into the conjunction. -/
theorem filter_filter_eq {α : Type} (p q : α → Bool) (l : List α) :
    (l.filter q).filter p = l.filter fun x => q x && p x := by
  induction l with
  | nil => rfl
  | cons x t ih => by_cases hq : q x <;> by_cases hp : p x <;> simp [hq, hp, ih]

/-- The count computed by the naive count-overlaps path is the number of
left intervals on the row's contig that overlap it strictly
(`l.start < r.end ∧ l.end > r.start`), whatever the requested filter
op. -/
theorem countForRow_eq (rows : List Bed) (r : Bed) :
    countForRow rows r =
      (rows.filter fun l => l.contig = r.contig && l.lo < r.hi && l.hi > r.lo).length := by
  have hpt : ∀ l : Bed, l ∈ rows →
      ((decide (l.contig = r.contig) &&
          (decide (l.lo ≤ r.hi - 1) && decide (r.lo + 1 ≤ l.hi))) =
        (decide (l.contig = r.contig) && decide (l.lo < r.hi) && decide (r.lo < l.hi))) := by
    intro l _
    have h1 : decide (l.lo ≤ r.hi - 1) = decide (l.lo < r.hi) :=
      decide_eq_decide.mpr Int.le_sub_one_iff
    have h2 : decide (r.lo + 1 ≤ l.hi) = decide (r.lo < l.hi) :=
      decide_eq_decide.mpr Int.add_one_le_iff
    rw [h1, h2, Bool.and_assoc]
  rw [← List.filter_congr hpt]
  unfold countForRow buildTrees queryCount
  by_cases hS : (rows.filter fun l => decide (l.contig = r.contig)) = []
  · rw [hS]
    simp only [List.map_nil, List.isEmpty_nil, if_pos]
    symm
    rw [List.length_eq_zero, List.filter_eq_nil_iff]
    rw [List.filter_eq_nil_iff] at hS
    intro a ha
    have := hS a ha
    simp only [decide_eq_true_eq] at this
    simp [this]
  · have hne : ¬ ((rows.filter fun l => decide (l.contig = r.contig)).map
        fun l => (l.lo, l.hi)).isEmpty := by
      simp [List.isEmpty_iff, hS]
    simp only [hne, if_neg, Bool.not_eq_true]
    rw [length_filter_map, filter_filter_eq]

/-- C3, counterexample: a touching pair under the `weak` filter op.
The left interval `(chr1, 10, 20)` overlaps the right row
`(chr1, 20, 30)` under `Weak` (`20 ≥ 20 ∧ 10 ≤ 30`), but the operator
returns count `0` for that row: the tree is always queried with the
shrunk window `(start+1, end−1)`, which realizes strict semantics
regardless of the filter op. -/
theorem count_overlaps_weak_counterexample :
    specCount .Weak [⟨"chr1", 10, 20⟩] ⟨"chr1", 20, 30⟩ = 1 ∧
      countOverlapsNaive [⟨"chr1", 10, 20⟩] [⟨"chr1", 20, 30⟩] =
        [(⟨"chr1", 20, 30⟩, 0)] := by
  constructor <;> decide

/-- C3, amended: each right row is augmented with the number of
left-table intervals on its contig satisfying the strict predicate
`l.start < r.end ∧ l.end > r.start` (the closed-semantics interval tree
is queried with the window shrunk by ±1, so the requested filter op is
not consulted); a row whose contig is absent from the left table gets
count `0`; scenario 3 yields counts `[2, 0]`. -/
theorem countForRow_characterization (rows : List Bed) (r : Bed) :
    countForRow rows r =
      (rows.filter fun l => l.contig = r.contig && l.lo < r.hi && l.hi > r.lo).length ∧
    (buildTrees rows r.contig = none → countForRow rows r = 0) ∧
    countOverlapsNaive [⟨"chr1", 10, 20⟩, ⟨"chr1", 15, 25⟩]
        [⟨"chr1", 12, 18⟩, ⟨"chr1", 30, 40⟩] =
      [(⟨"chr1", 12, 18⟩, 2), (⟨"chr1", 30, 40⟩, 0)] := by
  refine ⟨countForRow_eq rows r, fun h => ?_, by decide⟩
  unfold countForRow
  rw [h]

/-- C3, witness for `countForRow_characterization`: a right row on a
contig absent from the left table receives count `0`. -/
theorem countForRow_characterization_instance :
    countForRow [⟨"chr1", 10, 20⟩] ⟨"chr7", 1, 5⟩ = 0 :=
  (countForRow_characterization [⟨"chr1", 10, 20⟩] ⟨"chr7", 1, 5⟩).2.1 (by decide)

/-! ## C4: base-quality warn tag -/

/-- Once the udaf tag is `"fail"` it stays `"fail"`. -/
theorem foldl_udafWarnStep_fail {α : Type} (f : α → ℚ) (l : List α) :
    l.foldl (fun tag x => udafWarnStep tag (f x)) "fail" = "fail" := by
  induction l with
  | nil => rfl
  | cons q t ih =>
    rw [List.foldl_cons]
    have hstep : udafWarnStep "fail" (f q) = "fail" := by
      by_cases h : f q ≤ 20 <;> simp [udafWarnStep, h]
    rw [hstep, ih]

/-- From `"warn"`, only the fail threshold changes the udaf tag. -/
theorem foldl_udafWarnStep_warn {α : Type} (f : α → ℚ) (l : List α) :
    l.foldl (fun tag x => udafWarnStep tag (f x)) "warn" =
      if l.any (fun x => decide (f x ≤ 20)) then "fail" else "warn" := by
  induction l with
  | nil => rfl
  | cons q t ih =>
    rw [List.foldl_cons]
    by_cases h : f q ≤ 20
    · have hstep : udafWarnStep "warn" (f q) = "fail" := by simp [udafWarnStep, h]
      rw [hstep, foldl_udafWarnStep_fail]
      simp [h]
    · have hstep : udafWarnStep "warn" (f q) = "warn" := by simp [udafWarnStep, h]
      rw [hstep, ih]
      simp [h]

/-- Characterization of the udaf warn fold from the initial `"pass"`. -/
theorem foldl_udafWarnStep_pass {α : Type} (f : α → ℚ) (l : List α) :
    l.foldl (fun tag x => udafWarnStep tag (f x)) "pass" =
      if l.any (fun x => decide (f x ≤ 20)) then "fail"
      else if l.any (fun x => decide (f x ≤ 25)) then "warn"
      else "pass" := by
  induction l with
  | nil => rfl
  | cons q t ih =>
    rw [List.foldl_cons]
    by_cases h20 : f q ≤ 20
    · have hstep : udafWarnStep "pass" (f q) = "fail" := by simp [udafWarnStep, h20]
      rw [hstep, foldl_udafWarnStep_fail]
      simp [h20]
    · by_cases h25 : f q ≤ 25
      · have hstep : udafWarnStep "pass" (f q) = "warn" := by
          simp [udafWarnStep, h20, h25]
        rw [hstep, foldl_udafWarnStep_warn]
        simp [h20, h25]
      · have hstep : udafWarnStep "pass" (f q) = "pass" := by
          simp [udafWarnStep, h20, h25]
        rw [hstep, ih]
        simp [h20, h25]

/-- Once the finalize status is `"fail"` it stays `"fail"`. -/
theorem foldl_finalizeWarnStep_fail {α : Type} (f : α → ℚ) (l : List α) :
    l.foldl (fun tag x => finalizeWarnStep tag (f x)) "fail" = "fail" := by
  induction l with
  | nil => rfl
  | cons m t ih =>
    rw [List.foldl_cons]
    have hstep : finalizeWarnStep "fail" (f m) = "fail" := by
      by_cases h : f m ≤ 20 <;> simp [finalizeWarnStep, h]
    rw [hstep, ih]

/-- From `"warn"`, only the fail threshold changes the finalize
status. -/
theorem foldl_finalizeWarnStep_warn {α : Type} (f : α → ℚ) (l : List α) :
    l.foldl (fun tag x => finalizeWarnStep tag (f x)) "warn" =
      if l.any (fun x => decide (f x ≤ 20)) then "fail" else "warn" := by
  induction l with
  | nil => rfl
  | cons m t ih =>
    rw [List.foldl_cons]
    by_cases h20 : f m ≤ 20
    · have hstep : finalizeWarnStep "warn" (f m) = "fail" := by
        simp [finalizeWarnStep, h20]
      rw [hstep, foldl_finalizeWarnStep_fail]
      simp [h20]
    · have hstep : finalizeWarnStep "warn" (f m) = "warn" := by
        by_cases h25 : f m ≤ 25 <;> simp [finalizeWarnStep, h20, h25]
      rw [hstep, ih]
      simp [h20]

/-- Characterization of the finalize warn fold from `"pass"`. -/
theorem foldl_finalizeWarnStep_pass {α : Type} (f : α → ℚ) (l : List α) :
    l.foldl (fun tag x => finalizeWarnStep tag (f x)) "pass" =
      if l.any (fun x => decide (f x ≤ 20)) then "fail"
      else if l.any (fun x => decide (f x ≤ 25)) then "warn"
      else "pass" := by
  induction l with
  | nil => rfl
  | cons m t ih =>
    rw [List.foldl_cons]
    by_cases h20 : f m ≤ 20
    · have hstep : finalizeWarnStep "pass" (f m) = "fail" := by
        simp [finalizeWarnStep, h20]
      rw [hstep, foldl_finalizeWarnStep_fail]
      simp [h20]
    · by_cases h25 : f m ≤ 25
      · have hstep : finalizeWarnStep "pass" (f m) = "warn" := by
          simp [finalizeWarnStep, h20, h25]
        rw [hstep, foldl_finalizeWarnStep_warn]
        simp [h20, h25]
      · have hstep : finalizeWarnStep "pass" (f m) = "pass" := by
          simp [finalizeWarnStep, h20, h25]
        rw [hstep, ih]
        simp [h20, h25]

/-- C4, counterexample: a position whose scores are
`[5,5,5,30,30,30,30,30]` has median `30` (no median threshold fires,
so the claim's rule yields `"pass"`), yet the aggregate's `evaluate`
tags `"fail"` because it thresholds `q1 = 5`, not the median. -/
theorem base_quality_warn_counterexample :
    (calcStats [5, 5, 5, 30, 30, 30, 30, 30]).1 = 30 ∧
      (calcStats [5, 5, 5, 30, 30, 30, 30, 30]).2.1 = 5 ∧
      udafWarn [[5, 5, 5, 30, 30, 30, 30, 30]] = "fail" ∧
      medianRuleWarn [[5, 5, 5, 30, 30, 30, 30, 30]] = "pass" := by
  refine ⟨?_, ?_, ?_, ?_⟩ <;>
    norm_num [udafWarn, medianRuleWarn, udafWarnStep, finalizeWarnStep,
      calcStats, sortAsc, insertSorted]

/-- C4, amended: the tag computed by `QualityScoresStats::evaluate` is
derived from each position's `q1`, not its median — `q1 ≤ 20 → fail`,
else `q1 ≤ 25 → warn` unless already fail, else pass — while
`BaseQualityMetrics::finalize` derives its status from the per-position
medians exactly as the claim states. -/
theorem warn_tag_characterization (positions : List (List Nat)) (medians : List ℚ) :
    udafWarn positions =
      (if (positions.filter fun v => !v.isEmpty).any
            (fun v => decide ((calcStats v).2.1 ≤ 20)) then "fail"
       else if (positions.filter fun v => !v.isEmpty).any
            (fun v => decide ((calcStats v).2.1 ≤ 25)) then "warn"
       else "pass") ∧
    finalizeWarn medians =
      (if medians.any (fun m => decide (m ≤ 20)) then "fail"
       else if medians.any (fun m => decide (m ≤ 25)) then "warn"
       else "pass") := by
  exact ⟨foldl_udafWarnStep_pass (fun v => (calcStats v).2.1) _,
    foldl_finalizeWarnStep_pass (fun m => m) medians⟩

/-! ## C5: weighted-percentile quantiles -/

/-- Every entry of the support has a positive count. -/
theorem support_pos (hist : List Nat) : ∀ p ∈ support hist, 0 < p.2 := by
  intro p hp
  have := (List.mem_filter.mp hp).2
  simpa using this

/-- On positive-count entries, the source's loop (which tests
`acc = n ∧ lo.isSome` first) agrees with the specification's loop
(which looks for the first `acc + count > n`). -/
theorem quantLoop_eq_spec (n : Nat) (delta : ℚ) (l : List (Nat × Nat))
    (hl : ∀ p ∈ l, 0 < p.2) (acc : Nat) (lo : Option Nat) :
    quantLoop n delta l acc lo = specPercentileLoop n delta l acc lo := by
  induction l generalizing acc lo with
  | nil => rfl
  | cons p rest ih =>
    obtain ⟨hi, c⟩ := p
    have hc : 0 < c := hl (hi, c) (List.mem_cons_self ..)
    have hrest : ∀ p ∈ rest, 0 < p.2 := fun p hp => hl p (List.mem_cons_of_mem _ hp)
    rw [quantLoop, specPercentileLoop]
    by_cases h1 : acc = n ∧ lo.isSome
    · rw [if_pos h1, if_pos (by omega : acc + c > n), if_pos h1]
    · rw [if_neg h1]
      by_cases h2 : acc + c > n
      · rw [if_pos h2, if_pos h2, if_neg h1]
      · rw [if_neg h2, if_neg h2]
        exact ih hrest (acc + c) (some hi)

/-- If the target index `n` is dominated by the remaining mass, the
specification's loop reaches a return point. -/
theorem specLoop_isSome (n : Nat) (delta : ℚ) (l : List (Nat × Nat))
    (acc : Nat) (lo : Option Nat) (hle : acc ≤ n)
    (hgt : n < acc + (l.map fun p => p.2).sum) :
    (specPercentileLoop n delta l acc lo).isSome := by
  induction l generalizing acc lo with
  | nil =>
    simp only [List.map_nil, List.sum_nil] at hgt
    omega
  | cons p rest ih =>
    obtain ⟨hi, c⟩ := p
    simp only [List.map_cons, List.sum_cons] at hgt
    rw [specPercentileLoop]
    by_cases h2 : acc + c > n
    · rw [if_pos h2]
      by_cases h1 : acc = n ∧ lo.isSome
      · rw [if_pos h1]
        rfl
      · rw [if_neg h1]
        rfl
    · rw [if_neg h2]
      exact ih (acc + c) (some hi) (by omega) (by omega)

/-- Dropping the zero-count entries does not change the total count. -/
theorem support_map_sum (hist : List Nat) :
    ((support hist).map fun p => p.2).sum = hist.sum := by
  unfold support
  have h1 : ∀ l : List (Nat × Nat),
      (((l.filter fun p => decide (p.2 > 0)).map fun p => p.2).sum) =
        ((l.map fun p => p.2).sum) := by
    intro l
    induction l with
    | nil => rfl
    | cons p t ih =>
      by_cases hp : p.2 > 0
      · simp [List.filter_cons, hp, ih]
      · have hz : p.2 = 0 := by omega
        simp [List.filter_cons, hp, ih, hz]
  rw [h1]
  have h2 : (hist.enum.map fun p => p.2) = hist := List.enum_map_snd hist
  rw [h2]

/-- Dropping the zero-count entries does not change the weighted sum. -/
theorem weighted_eq_support (l : List (Nat × Nat)) :
    ((l.map fun p => p.1 * p.2).sum) =
      (((l.filter fun p => decide (p.2 > 0)).map fun p => p.1 * p.2).sum) := by
  induction l with
  | nil => rfl
  | cons p t ih =>
    by_cases hp : p.2 > 0
    · simp [List.filter_cons, hp, ih]
    · have hz : p.2 = 0 := by omega
      simp [List.filter_cons, hp, ih, hz]

/-- For `q ≤ 3/4` and at least two observations, the target index
`n = ⌊q·(N−1)⌋ + 1` is positive and below `N`. -/
theorem rankParams_lt (q : ℚ) (total : Nat) (hq0 : 0 ≤ q) (hq1 : q ≤ 3/4)
    (ht : 2 ≤ total) :
    0 < (rankParams q total).1 ∧ (rankParams q total).1 < total := by
  unfold rankParams
  refine ⟨Nat.succ_pos _, ?_⟩
  have htQ : (1 : ℚ) ≤ (total : ℚ) - 1 := by
    have h2 : (2 : ℚ) ≤ (total : ℚ) := by exact_mod_cast ht
    linarith
  have hlt : q * ((total : ℚ) - 1) < (total : ℚ) - 1 := by
    have hstep : q * ((total : ℚ) - 1) ≤ (3/4) * ((total : ℚ) - 1) :=
      mul_le_mul_of_nonneg_right hq1 (by linarith)
    linarith
  have hfl : ⌊q * ((total : ℚ) - 1)⌋ < (total : ℤ) - 1 := by
    apply Int.floor_lt.mpr
    push_cast
    linarith
  have hge : 0 ≤ ⌊q * ((total : ℚ) - 1)⌋ :=
    Int.floor_nonneg.mpr (mul_nonneg hq0 (by linarith))
  omega

/-- An all-zero suffix contributes nothing to the support. -/
theorem sum_zero_filter (t : List Nat) (k : Nat) (ht : t.sum = 0) :
    (List.enumFrom k t).filter (fun p => decide (p.2 > 0)) = [] := by
  induction t generalizing k with
  | nil => rfl
  | cons c rest ih =>
    have hc : c = 0 ∧ rest.sum = 0 := by
      simp only [List.sum_cons] at ht
      omega
    rw [List.enumFrom, List.filter_cons, if_neg (by simp [hc.1])]
    exact ih (k + 1) hc.2

/-- An all-zero suffix leaves the last-nonzero fold unchanged. -/
theorem sum_zero_foldl (t : List Nat) (k acc : Nat) (ht : t.sum = 0) :
    (List.enumFrom k t).foldl (fun acc p => if p.2 > 0 then p.1 else acc) acc
      = acc := by
  induction t generalizing k with
  | nil => rfl
  | cons c rest ih =>
    have hc : c = 0 ∧ rest.sum = 0 := by
      simp only [List.sum_cons] at ht
      omega
    rw [List.enumFrom, List.foldl_cons]
    have hstep : (if c > 0 then k else acc) = acc := by
      rw [if_neg (by omega)]
    show (List.enumFrom (k + 1) rest).foldl
        (fun acc p => if p.2 > 0 then p.1 else acc) (if c > 0 then k else acc) = acc
    rw [hstep]
    exact ih (k + 1) hc.2

/-- A histogram with total count one has a one-element support, and the
last-nonzero fold finds that element from any start value. -/
theorem sum_one_support (l : List Nat) (k : Nat) (hl : l.sum = 1) :
    ∃ s, (List.enumFrom k l).filter (fun p => decide (p.2 > 0)) = [(s, 1)] ∧
      ∀ acc, (List.enumFrom k l).foldl
        (fun acc p => if p.2 > 0 then p.1 else acc) acc = s := by
  induction l generalizing k with
  | nil => simp at hl
  | cons c rest ih =>
    by_cases hc0 : c = 0
    · have hr : rest.sum = 1 := by
        simp only [List.sum_cons] at hl
        omega
      obtain ⟨s, hs1, hs2⟩ := ih (k + 1) hr
      refine ⟨s, ?_, ?_⟩
      · rw [List.enumFrom, List.filter_cons, if_neg (by simp [hc0])]
        exact hs1
      · intro acc
        rw [List.enumFrom, List.foldl_cons]
        show (List.enumFrom (k + 1) rest).foldl
            (fun acc p => if p.2 > 0 then p.1 else acc) (if c > 0 then k else acc) = s
        rw [if_neg (by omega)]
        exact hs2 acc
    · have hc1 : c = 1 ∧ rest.sum = 0 := by
        simp only [List.sum_cons] at hl
        omega
      refine ⟨k, ?_, ?_⟩
      · rw [List.enumFrom, List.filter_cons, if_pos (by simp [hc1.1]),
          sum_zero_filter rest (k + 1) hc1.2, hc1.1]
      · intro acc
        rw [List.enumFrom, List.foldl_cons]
        show (List.enumFrom (k + 1) rest).foldl
            (fun acc p => if p.2 > 0 then p.1 else acc) (if c > 0 then k else acc) = k
        rw [if_pos (by omega)]
        exact sum_zero_foldl rest (k + 1) k hc1.2

/-- `rank = q·(1−1) = 0`, so a single observation targets `n = 1` with
`δ = 0`. -/
theorem rankParams_one (q : ℚ) : rankParams q 1 = (1, 0) := by
  unfold rankParams
  norm_num

/-- On a one-element support, the loop falls through and the inner
`quantile` returns the largest (= single) nonzero score. -/
theorem histQuantile_single (hist : List Nat) (q : ℚ) (s : Nat)
    (hs : support hist = [(s, 1)]) (hln : lastNonzeroScore hist = s) :
    histQuantile hist q 1 = (s : ℚ) := by
  unfold histQuantile
  rw [rankParams_one, hs]
  show (match quantLoop 1 0 [(s, 1)] 0 none with
    | some r => r
    | none => (lastNonzeroScore hist : ℚ)) = (s : ℚ)
  rw [show quantLoop 1 0 [(s, 1)] 0 none = none by
    rw [quantLoop, if_neg (by simp), if_neg (by omega)]
    rfl]
  rw [hln]

/-- The weighted sum over the whole histogram equals the weighted sum
over its support. -/
theorem weighted_support (hist : List Nat) :
    ((hist.enum.map fun p => p.1 * p.2).sum) =
      (((support hist).map fun p => p.1 * p.2).sum) :=
  weighted_eq_support hist.enum

/-- C5: for every histogram with `N ≥ 2` and each quantile
`q ∈ {1/4, 1/2, 3/4}`, the quantile computed by the source loop — both
the `calculate_histogram_stats` variant and the
`QuartilesAccumulator::quartiles` variant — equals the specification's
weighted percentile; and for `N = 1` (single observed score `s`, the
unique support element) all five statistics of both variants equal
`s`. -/
theorem quantile_weighted_percentile (hist : List Nat) (q : ℚ) :
    (2 ≤ hist.sum → (q = 1/4 ∨ q = 1/2 ∨ q = 3/4) →
      specPercentile hist q hist.sum = some (histQuantile hist q hist.sum) ∧
      udafQuant hist q hist.sum = histQuantile hist q hist.sum) ∧
    (hist.sum = 1 →
      support hist = [(lastNonzeroScore hist, 1)] ∧
      calculate_histogram_stats hist =
        some ((lastNonzeroScore hist : ℚ), (lastNonzeroScore hist : ℚ),
          (lastNonzeroScore hist : ℚ), (lastNonzeroScore hist : ℚ),
          (lastNonzeroScore hist : ℚ), (lastNonzeroScore hist : ℚ)) ∧
      QuartilesAccumulator.quartiles hist =
        some ((lastNonzeroScore hist : ℚ), (lastNonzeroScore hist : ℚ),
          (lastNonzeroScore hist : ℚ), (lastNonzeroScore hist : ℚ),
          (lastNonzeroScore hist : ℚ))) := by
  constructor
  · intro h2 hq
    have hq0 : 0 ≤ q := by
      rcases hq with h | h | h <;> rw [h] <;> norm_num
    have hq1 : q ≤ 3/4 := by
      rcases hq with h | h | h <;> rw [h] <;> norm_num
    obtain ⟨hn1, hn2⟩ := rankParams_lt q hist.sum hq0 hq1 h2
    have hsupp := support_pos hist
    have hsum := support_map_sum hist
    have hsome : (specPercentileLoop (rankParams q hist.sum).1
        (rankParams q hist.sum).2 (support hist) 0 none).isSome := by
      apply specLoop_isSome _ _ _ 0 none (by omega)
      rw [hsum]
      omega
    obtain ⟨r, hr⟩ := Option.isSome_iff_exists.mp hsome
    have heq : quantLoop (rankParams q hist.sum).1 (rankParams q hist.sum).2
        (support hist) 0 none = some r := by
      rw [quantLoop_eq_spec _ _ _ hsupp 0 none, hr]
    constructor
    · unfold specPercentile histQuantile
      rw [hr, heq]
    · unfold udafQuant histQuantile
      rw [heq]
      rfl
  · intro h1
    obtain ⟨s, hs1, hs2⟩ := sum_one_support hist 0 h1
    have hsupp2 : support hist = [(s, 1)] := hs1
    have hln : lastNonzeroScore hist = s := hs2 0
    have hq14 := histQuantile_single hist (1/4) s hsupp2 hln
    have hq12 := histQuantile_single hist (1/2) s hsupp2 hln
    have hq34 := histQuantile_single hist (3/4) s hsupp2 hln
    have hw : ((hist.enum.map fun p => p.1 * p.2).sum) = s := by
      rw [weighted_support, hsupp2]
      simp
    refine ⟨by rw [hsupp2, hln], ?_, ?_⟩
    · simp only [calculate_histogram_stats, h1]
      rw [if_neg (by norm_num), hq14, hq12, hq34, hw, hln]
      norm_num
    · simp only [QuartilesAccumulator.quartiles, h1]
      norm_num

/-- C5, witness for `quantile_weighted_percentile`: the median of the
two-observation histogram `[1, 1]` (scores 0 and 1), and the support of
the single-observation histogram `[0, 1]`. -/
theorem quantile_weighted_percentile_instance :
    specPercentile [1, 1] (1/2) ([1, 1].sum)
        = some (histQuantile [1, 1] (1/2) ([1, 1].sum)) ∧
      support [0, 1] = [(lastNonzeroScore [0, 1], 1)] :=
  ⟨((quantile_weighted_percentile [1, 1] (1/2)).1 (by decide)
      (Or.inr (Or.inl rfl))).1,
   ((quantile_weighted_percentile [0, 1] (1/2)).2 (by decide)).1⟩

/-! ## C6: write-stream row counting -/

/-- The fold of `consume_write_stream` stays below `2 ^ 64`. -/
theorem consume_fold_lt (batches : List WBatch) (acc : Nat) (hacc : acc < U64MOD) :
    batches.foldl
      (fun total b =>
        match b.countCol with
        | .u64 vals =>
          match vals.head? with
          | some (some v) => (total + v) % U64MOD
          | _ => total
        | .nonU64 => total
        | .absent => (total + b.numRows) % U64MOD)
      acc < U64MOD := by
  induction batches generalizing acc with
  | nil => exact hacc
  | cons b t ih =>
    rw [List.foldl_cons]
    rcases b with ⟨cc, rows⟩
    rcases cc with _ | _ | vals
    · exact ih _ (Nat.mod_lt _ (by norm_num [U64MOD]))
    · exact ih _ hacc
    · rcases vals with _ | ⟨v0, vrest⟩
      · exact ih _ hacc
      · rcases v0 with _ | v
        · exact ih _ hacc
        · exact ih _ (Nat.mod_lt _ (by norm_num [U64MOD]))

/-- Under the spec-modelled batch shape, the fold of
`consume_write_stream` adds up the claimed totals. -/
theorem consume_fold_eq (batches : List WBatch) (acc : Nat)
    (hwf : ∀ b ∈ batches, b.wellFormed)
    (hb : acc + claimedTotal batches < U64MOD) :
    batches.foldl
      (fun total b =>
        match b.countCol with
        | .u64 vals =>
          match vals.head? with
          | some (some v) => (total + v) % U64MOD
          | _ => total
        | .nonU64 => total
        | .absent => (total + b.numRows) % U64MOD)
      acc = acc + claimedTotal batches := by
  induction batches generalizing acc with
  | nil => simp [claimedTotal]
  | cons b t ih =>
    have hwb : b.wellFormed := hwf b (List.mem_cons_self b t)
    have hwt : ∀ x ∈ t, x.wellFormed := fun x hx => hwf x (List.mem_cons_of_mem b hx)
    have hct : claimedTotal (b :: t) =
        (match b.countCol with
          | .u64 vals => (vals.filterMap id).sum
          | .nonU64 => 0
          | .absent => b.numRows) + claimedTotal t := by
      simp [claimedTotal]
    rcases hwb with ⟨v, hv⟩ | hv
    · rw [List.foldl_cons, hv]
      have hsum : claimedTotal (b :: t) = v + claimedTotal t := by
        rw [hct, hv]
        simp
      rw [hsum] at hb ⊢
      have hmod : (acc + v) % U64MOD = acc + v :=
        Nat.mod_eq_of_lt (by omega)
      simp only [List.head?_cons, hmod]
      rw [ih (acc + v) hwt (by omega)]
      omega
    · rw [List.foldl_cons, hv]
      have hsum : claimedTotal (b :: t) = b.numRows + claimedTotal t := by
        rw [hct, hv]
      rw [hsum] at hb ⊢
      have hmod : (acc + b.numRows) % U64MOD = acc + b.numRows :=
        Nat.mod_eq_of_lt (by omega)
      simp only [hmod]
      rw [ih (acc + b.numRows) hwt (by omega)]
      omega

/-- C6: for a stream of batches of the shape the `insert_into` write
plan emits (count-bearing batches carry the written row count as the
single non-null `u64` value of their `count` column), the driver
returns the sum of all `count` values across batches, falling back to
`num_rows()` for batches without a `count` column; the returned total
is a `u64`, hence non-negative and below `2 ^ 64`. -/
theorem consume_write_stream_spec (batches : List WBatch)
    (hwf : ∀ b ∈ batches, b.wellFormed)
    (hb : claimedTotal batches < U64MOD) :
    consume_write_stream batches = claimedTotal batches ∧
      consume_write_stream batches < U64MOD := by
  unfold consume_write_stream
  constructor
  · have := consume_fold_eq batches 0 hwf (by omega)
    omega
  · exact consume_fold_lt batches 0 (by norm_num [U64MOD])

/-- C6, witness for `consume_write_stream_spec` at a concrete stream:
two counted batches and one fallback batch. -/
theorem consume_write_stream_spec_instance :
    consume_write_stream
        [⟨.u64 [some 5], 3⟩, ⟨.absent, 7⟩, ⟨.u64 [some 2], 9⟩] = 14 :=
  (consume_write_stream_spec
      [⟨.u64 [some 5], 3⟩, ⟨.absent, 7⟩, ⟨.u64 [some 2], 9⟩]
      (by
        intro b hb
        fin_cases hb
        · exact Or.inl ⟨5, rfl⟩
        · exact Or.inr rfl
        · exact Or.inl ⟨2, rfl⟩)
      (by decide)).1.trans (by decide)

/-! ## C7: generated table names -/

/-- C7, counterexample: two distinct naive count-overlaps/coverage plan
constructions register their provider under the same catalog name —
the name is the constant `"count_overlaps_coverage"`, not a
counter-generated unique name. -/
theorem table_name_collision :
    countOverlapsRegisteredName 0 = countOverlapsRegisteredName 1 ∧
      countOverlapsRegisteredName 0 = "count_overlaps_coverage" :=
  ⟨rfl, rfl⟩

/-- C7, amended: the catalog names used by range-operation dispatch are
fixed constants — every naive count-overlaps/coverage dispatch
registers `"count_overlaps_coverage"` (deregistering the previous
provider first) and the inputs are registered under `"s1"`/`"s2"` — so
any two plan constructions use the same names rather than distinct
counter-generated ones. -/
theorem table_names_constant (j k : Nat) :
    countOverlapsRegisteredName j = "count_overlaps_coverage" ∧
      countOverlapsRegisteredName j = countOverlapsRegisteredName k ∧
      LEFT_TABLE = "s1" ∧ RIGHT_TABLE = "s2" :=
  ⟨rfl, rfl, rfl, rfl⟩

/-! ## C9: schema-override stream -/

/-- C9: the schema-override wrapper maps every `Ok` input batch to
exactly one `Ok` output batch and propagates errors unchanged (it never
turns an `Ok` batch into an error); a column whose cast fails is passed
through unchanged, and if rebuilding the batch under the override
schema fails the whole original batch is passed through. -/
theorem schema_override_stream_spec (cast : Column → String → Option Column)
    (tryNew : List String → List Column → Option OBatch)
    (schema : List String) (input : List (Except String OBatch))
    (c : Column) (target : String) (b : OBatch) :
    overrideStream cast tryNew schema input =
      input.map (Except.map (overrideBatch cast tryNew schema)) ∧
    overrideColumn cast target c =
      (if c.dtype = target then c else (cast c target).getD c) ∧
    overrideBatch cast tryNew schema b =
      (tryNew schema ((b.cols.zip schema).map fun p =>
          overrideColumn cast p.2 p.1)).getD b := by
  refine ⟨?_, ?_, ?_⟩
  · unfold overrideStream
    apply List.map_congr_left
    intro x _
    cases x <;> rfl
  · unfold overrideColumn
    by_cases hd : c.dtype = target
    · simp [hd]
    · cases h : cast c target <;> simp [hd, h]
  · unfold overrideBatch
    cases h : tryNew schema ((b.cols.zip schema).map fun p =>
        overrideColumn cast p.2 p.1) <;> simp [h]

/-! ## C10: round-robin partitioning -/

/-- `pushAt` preserves the number of buckets. -/
theorem pushAt_length (ps : List (List α)) (k : Nat) (b : α) :
    (pushAt ps k b).length = ps.length := by
  simp [pushAt]

/-- `pushAt` appends to the addressed bucket. -/
theorem pushAt_getD_self (ps : List (List α)) (k : Nat) (hk : k < ps.length) (b : α) :
    (pushAt ps k b).getD k [] = ps.getD k [] ++ [b] := by
  induction ps generalizing k with
  | nil => simp at hk
  | cons h t ih =>
    cases k with
    | zero => simp [pushAt]
    | succ k2 =>
      have : pushAt (h :: t) (k2 + 1) b = h :: pushAt t k2 b := by
        simp [pushAt]
      rw [this]
      simpa using ih k2 (by simpa using hk)

/-- `pushAt` leaves the other buckets unchanged. -/
theorem pushAt_getD_ne (ps : List (List α)) (k : Nat) (b : α) (j : Nat) (hj : j ≠ k) :
    (pushAt ps k b).getD j [] = ps.getD j [] := by
  induction ps generalizing k j with
  | nil => simp [pushAt]
  | cons h t ih =>
    cases k with
    | zero =>
      cases j with
      | zero => exact absurd rfl hj
      | succ j2 => simp [pushAt]
    | succ k2 =>
      have hps : pushAt (h :: t) (k2 + 1) b = h :: pushAt t k2 b := by
        simp [pushAt]
      cases j with
      | zero => rw [hps]; rfl
      | succ j2 =>
        rw [hps]
        simpa using ih k2 j2 (by omega)

/-- The loop preserves the number of buckets. -/
theorem rrLoop_length (p : Nat) (l : List α) (i0 : Nat) (ps : List (List α)) :
    (rrLoop p l i0 ps).length = ps.length := by
  induction l generalizing i0 ps with
  | nil => rfl
  | cons b rest ih => rw [rrLoop, ih, pushAt_length]

/-- Content of bucket `j` after the loop: what was there before,
followed by the batches whose running index is congruent to `j`. -/
theorem rrLoop_getD (p : Nat) (l : List α) (i0 : Nat) (ps : List (List α))
    (hlen : ps.length = p) (j : Nat) (hj : j < p) :
    (rrLoop p l i0 ps).getD j [] = ps.getD j [] ++ rrSpec p l i0 j := by
  induction l generalizing i0 ps with
  | nil => simp [rrLoop, rrSpec]
  | cons b rest ih =>
    rw [rrLoop]
    have hlen2 : (pushAt ps (i0 % p) b).length = p := by
      rw [pushAt_length, hlen]
    rw [ih (i0 + 1) _ hlen2]
    by_cases hij : i0 % p = j
    · rw [hij, pushAt_getD_self ps j (by omega) b]
      simp [rrSpec, hij, List.append_assoc]
    · rw [pushAt_getD_ne ps (i0 % p) b j (fun h => hij h.symm)]
      simp [rrSpec, hij]

/-- A bucket that some input index targets ends up nonempty. -/
theorem rrSpec_ne_nil (p : Nat) (l : List α) (i0 j : Nat)
    (h : ∃ k, k < l.length ∧ (i0 + k) % p = j) : rrSpec p l i0 j ≠ [] := by
  induction l generalizing i0 with
  | nil =>
    obtain ⟨k, hk, _⟩ := h
    simp at hk
  | cons b rest ih =>
    by_cases hij : i0 % p = j
    · simp [rrSpec, hij]
    · rw [rrSpec, if_neg hij]
      apply ih
      obtain ⟨k, hk, hmod⟩ := h
      cases k with
      | zero => exact absurd (by simpa using hmod) hij
      | succ k2 =>
        exact ⟨k2, by simpa using hk, by rw [← hmod]; congr 1; omega⟩

/-- Total multiplicity across buckets grows by one per pushed batch. -/
theorem pushAt_count [DecidableEq α] (ps : List (List α)) (k : Nat)
    (hk : k < ps.length) (b : α) (a : α) :
    ((pushAt ps k b).map fun t => t.count a).sum =
      (ps.map fun t => t.count a).sum + (if b = a then 1 else 0) := by
  induction ps generalizing k with
  | nil => simp at hk
  | cons h t ih =>
    cases k with
    | zero =>
      simp [pushAt, List.count_append, List.count_singleton]
      by_cases hba : b = a <;> simp [hba] <;> omega
    | succ k2 =>
      have hps : pushAt (h :: t) (k2 + 1) b = h :: pushAt t k2 b := by
        simp [pushAt]
      rw [hps]
      simp only [List.map_cons, List.sum_cons, ih k2 (by simpa using hk)]
      omega

/-- The loop conserves batch multiplicities. -/
theorem rrLoop_count [DecidableEq α] (p : Nat) (hp : 0 < p) (l : List α)
    (i0 : Nat) (ps : List (List α)) (hlen : ps.length = p) (a : α) :
    ((rrLoop p l i0 ps).map fun t => t.count a).sum =
      (ps.map fun t => t.count a).sum + l.count a := by
  induction l generalizing i0 ps with
  | nil => simp [rrLoop]
  | cons b rest ih =>
    rw [rrLoop]
    have hlen2 : (pushAt ps (i0 % p) b).length = p := by
      rw [pushAt_length, hlen]
    rw [ih (i0 + 1) _ hlen2,
      pushAt_count ps (i0 % p) (by rw [hlen]; exact Nat.mod_lt _ hp) b a]
    by_cases hba : b = a <;> simp [hba, List.count_cons] <;> omega

/-- Every bucket of an all-empty bucket vector is empty. -/
theorem getD_replicate_nil (p j : Nat) :
    (List.replicate p ([] : List α)).getD j [] = [] := by
  induction p generalizing j with
  | zero => simp
  | succ n ih => cases j <;> simp [List.replicate_succ, ih]

/-- With at least as many batches as buckets, every bucket of the
freshly started loop is nonempty. -/
theorem rrLoop_bucket_ne_nil (p : Nat) (l : List α)
    (hpl : p ≤ l.length) (j : Nat) (hj : j < p) :
    (rrLoop p l 0 (List.replicate p [])).getD j [] ≠ [] := by
  rw [rrLoop_getD p l 0 _ (List.length_replicate ..) j hj, getD_replicate_nil]
  simp only [List.nil_append]
  exact rrSpec_ne_nil p l 0 j ⟨j, by omega, by simpa using Nat.mod_eq_of_lt hj⟩

/-! ## C8: quality-histogram byte pipeline -/

/-- Pointwise effect of one byte on the histogram. -/
theorem recordByte_apply (h : Nat → Nat → Nat) (q b pos sc : Nat) :
    recordByte h q b pos sc =
      h pos sc + (if pos = q ∧ 33 ≤ b ∧ b ≤ 126 ∧ b - 33 = sc then 1 else 0) := by
  cases hd : decode_score b with
  | none =>
    have hb : ¬33 ≤ b := by
      by_cases hh : 33 ≤ b
      · simp [decode_score, hh] at hd
      · exact hh
    unfold recordByte
    rw [hd, if_neg (by omega)]
    rfl
  | some score =>
    have hsc : score = b - 33 ∧ 33 ≤ b := by
      by_cases hh : 33 ≤ b
      · rw [decode_score, if_pos hh] at hd
        exact ⟨(Option.some.injEq .. ▸ hd).symm, hh⟩
      · rw [decode_score, if_neg hh] at hd
        cases hd
    unfold recordByte
    rw [hd]
    show (if score < 94 then
        (fun p s => if p = q ∧ s = score then h p s + 1 else h p s) else h) pos sc = _
    by_cases h94 : score < 94
    · rw [if_pos h94]
      show (if pos = q ∧ sc = score then h pos sc + 1 else h pos sc) = _
      by_cases hc : pos = q ∧ sc = score
      · rw [if_pos hc, if_pos ⟨hc.1, hsc.2, by omega, by omega⟩]
      · rw [if_neg hc, if_neg fun hk => hc ⟨hk.1, by omega⟩]
        omega
    · rw [if_neg h94, if_neg (by intro hk; omega)]
      show h pos sc = h pos sc + 0
      omega

/-- Folding the byte loop counts the matching `(position, byte)`
pairs. -/
theorem foldl_recordByte (l : List (Nat × Nat)) (h : Nat → Nat → Nat)
    (pos sc : Nat) :
    (l.foldl (fun h p => recordByte h p.1 p.2) h) pos sc =
      h pos sc +
        (l.filter fun p =>
          p.1 = pos && 33 ≤ p.2 && p.2 ≤ 126 && p.2 - 33 = sc).length := by
  induction l generalizing h with
  | nil => simp
  | cons q t ih =>
    rw [List.foldl_cons, ih, recordByte_apply h q.1 q.2 pos sc, List.filter_cons]
    by_cases hm : pos = q.1 ∧ 33 ≤ q.2 ∧ q.2 ≤ 126 ∧ q.2 - 33 = sc
    · rw [if_pos hm, if_pos (by simp only [Bool.and_eq_true, decide_eq_true_eq]; omega)]
      rw [List.length_cons]
      omega
    · rw [if_neg hm, if_neg (by simp only [Bool.and_eq_true, decide_eq_true_eq]; omega)]
      omega

/-- Success of the `add_quality` loop means every byte is in the safe
range `33..=126`. -/
theorem addQualityGo_isSome (s : List Nat) (i : Nat) :
    (addQualityGo i s).isSome ↔ ∀ b ∈ s, 33 ≤ b ∧ b ≤ 126 := by
  induction s generalizing i with
  | nil => simp [addQualityGo]
  | cons b rest ih =>
    rw [addQualityGo]
    by_cases hb : 33 ≤ b ∧ b - 33 < 94
    · have hbyte : addQualityByte b = some (b - 33) := by
        simp [addQualityByte, hb]
      rw [hbyte]
      have hiff : ((addQualityGo (i + 1) rest).map
            fun t => (i, b - 33) :: t).isSome = (addQualityGo (i + 1) rest).isSome := by
        cases addQualityGo (i + 1) rest <;> rfl
      rw [hiff, ih (i + 1)]
      constructor
      · intro hall c hc
        rcases List.mem_cons.mp hc with hcb | hcr
        · subst hcb
          exact ⟨hb.1, by omega⟩
        · exact hall c hcr
      · intro hall c hc
        exact hall c (List.mem_cons_of_mem b hc)
    · have hbyte : addQualityByte b = none := by
        simp only [addQualityByte, if_neg hb]
      rw [hbyte]
      simp only [Option.isSome_none, Bool.false_eq_true, false_iff]
      intro hall
      have := hall b (List.mem_cons_self b rest)
      omega

/-- C8, counterexample: the byte `127` satisfies `b ≥ 33` and decodes
to score `94`, but the pipeline records no observation for it (the
bounds check `score < 94` drops it), contradicting "if `b ≥ 33` it
records one observation with score `b − 33`". -/
theorem histogram_byte127_counterexample :
    decode_score 127 = some 94 ∧ histOf [127] 0 94 = 0 := by
  constructor <;> rfl

/-- C8, amended: the histogram stream records one observation with
score `b − 33` exactly for bytes `33 ≤ b ≤ 126` (so every recorded
score lies in `0..=93`); every other byte is dropped without an error
or panic (the pipeline is a total function); the
`QuartilesAccumulator::add_quality` path, by contrast, panics on any
byte outside `33..=126`. -/
theorem histOf_characterization (s : List Nat) (pos sc : Nat) :
    (histOf s pos sc =
      (s.enum.filter fun p =>
        p.1 = pos && 33 ≤ p.2 && p.2 ≤ 126 && p.2 - 33 = sc).length) ∧
    (94 ≤ sc → histOf s pos sc = 0) ∧
    ((addQuality s).isSome ↔ ∀ b ∈ s, 33 ≤ b ∧ b ≤ 126) := by
  have hmain : histOf s pos sc =
      (s.enum.filter fun p =>
        p.1 = pos && 33 ≤ p.2 && p.2 ≤ 126 && p.2 - 33 = sc).length := by
    unfold histOf processString
    rw [foldl_recordByte]
    omega
  refine ⟨hmain, ?_, addQualityGo_isSome s 0⟩
  intro hsc
  rw [hmain, List.length_eq_zero, List.filter_eq_nil_iff]
  intro p _
  simp only [Bool.and_eq_true, decide_eq_true_eq, not_and]
  intro _ h2
  omega

/-- C8, witness for `histOf_characterization`: the byte `73` (`I`)
records one observation with score `40` at position `0`, and no
observation ever lands in a slot `≥ 94`. -/
theorem histOf_characterization_instance :
    histOf [73, 33] 0 40 = 1 ∧ histOf [73, 33] 0 94 = 0 :=
  ⟨by rw [(histOf_characterization [73, 33] 0 40).1]; rfl,
   (histOf_characterization [73, 33] 0 94).2.1 (by norm_num)⟩

/-- C10: an empty batch list yields exactly one empty partition; a
non-empty one is distributed round-robin across
`p = max (min target_partitions n) 1` partitions — exactly `p`
partitions are returned (hence at most `p`), none is empty, partition
`j` holds precisely the batches whose index `i` satisfies `i % p = j`
in input order, and batch multiplicities are conserved (every input
batch lands in exactly one partition). -/
theorem create_partition_streams_spec {α : Type} [DecidableEq α]
    (batches : List α) (target : Nat) :
    (batches = [] → create_partition_streams batches target = [[]]) ∧
    (batches ≠ [] →
      (create_partition_streams batches target).length
          = max (min target batches.length) 1 ∧
      (∀ part ∈ create_partition_streams batches target, part ≠ []) ∧
      (∀ j, j < max (min target batches.length) 1 →
        (create_partition_streams batches target).getD j [] =
          rrSpec (max (min target batches.length) 1) batches 0 j) ∧
      (∀ a : α,
        ((create_partition_streams batches target).map
            fun part => part.count a).sum = batches.count a)) := by
  constructor
  · intro h
    subst h
    rfl
  · intro hne
    have hn : 0 < batches.length := List.length_pos.mpr hne
    have hp : 0 < max (min target batches.length) 1 := by omega
    have hpl : max (min target batches.length) 1 ≤ batches.length := by omega
    have hres0len :
        (rrLoop (max (min target batches.length) 1) batches 0
          (List.replicate (max (min target batches.length) 1) [])).length
            = max (min target batches.length) 1 := by
      rw [rrLoop_length, List.length_replicate]
    have hnonempty : ∀ x ∈ rrLoop (max (min target batches.length) 1) batches 0
        (List.replicate (max (min target batches.length) 1) []), x ≠ [] := by
      intro x hx
      obtain ⟨i, hi, hxe⟩ := List.mem_iff_getElem.mp hx
      have hi2 : i < max (min target batches.length) 1 := by
        rw [hres0len] at hi
        exact hi
      have hnn := rrLoop_bucket_ne_nil (max (min target batches.length) 1)
        batches hpl i hi2
      rw [List.getD_eq_getElem _ _ hi] at hnn
      rw [← hxe]
      exact hnn
    have hcps : create_partition_streams batches target =
        rrLoop (max (min target batches.length) 1) batches 0
          (List.replicate (max (min target batches.length) 1) []) := by
      unfold create_partition_streams
      rw [if_neg (by simpa [List.isEmpty_iff] using hne)]
      apply List.filter_eq_self.mpr
      intro a ha
      simpa [List.isEmpty_iff] using hnonempty a ha
    refine ⟨by rw [hcps, hres0len], ?_, ?_, ?_⟩
    · intro part hpart
      rw [hcps] at hpart
      exact hnonempty part hpart
    · intro j hj
      rw [hcps,
        rrLoop_getD (max (min target batches.length) 1) batches 0 _
          (List.length_replicate ..) j hj,
        getD_replicate_nil, List.nil_append]
    · intro a
      rw [hcps,
        rrLoop_count (max (min target batches.length) 1) hp batches 0 _
          (List.length_replicate ..) a]
      simp

/-- C10, witness for `create_partition_streams_spec`: the empty case
and a concrete five-batch round-robin over two partitions. -/
theorem create_partition_streams_spec_instance :
    create_partition_streams ([] : List Nat) 4 = [[]] ∧
      (create_partition_streams [10, 20, 30, 40, 50] 2).length = 2 :=
  ⟨(create_partition_streams_spec ([] : List Nat) 4).1 rfl,
   by
     have h := ((create_partition_streams_spec [10, 20, 30, 40, 50] 2).2
       (by decide)).1
     simpa using h⟩

end PolarsBio
